import Mathlib

/-!
Verification of the stock-ai-agent indicator/scoring pipeline.

This file gives a shallow embedding of the core of the pipeline:

* `scripts/build_watchlist.py`  — merge of latest daily / latest weekly
  indicator rows, composite scoring and top-20 ranking;
* `scripts/build_indicators.py` — RSI (Wilder EWMA), volume-spike ratio,
  the daily→weekly resampler `to_weekly_from_daily`, the per-symbol driver
  loop, and the input schema checks of `main`;
* `scripts/build_coverage_report.py` — coverage status assignment;
* `scripts/collect_prices.py`   — ingestion dedup (`drop_duplicates` with
  `keep="last"`) combined with the date sort of `build_indicators.main`.

Conventions used throughout:

* pandas/NumPy floats are modelled as `ℚ` where no NaN/∞ can arise, and as
  the four-constructor type `PF` (`nan`, `pinf`, `ninf`, `val q`) where the
  claims are about NaN/∞ propagation;
* nullable columns are `Option ℚ`; pandas comparisons against null are
  false (`oGT`, `oLT`, `oGE`, `oLE` below), matching `.fillna(False)`;
* dates are integer day numbers since 1970-01-01 (a Thursday), so a date
  `d` is a Friday exactly when `d % 7 = 1`; ISO `YYYY-MM-DD` strings are
  order-isomorphic to these day numbers;
* `pandas.DataFrame.sort_values` on key columns is modelled with
  `List.mergeSort` (stable; for the multi-key sorts used here the keys are
  unique, so stability is immaterial).
-/

namespace StockAgent

/-! ### Null-tolerant comparisons (pandas semantics)

A comparison between Series in pandas yields `False` whenever either side
is NaN/null; `build_watchlist.py` additionally applies `.fillna(False)`.
Both collapse to: a null operand makes the predicate false. -/

/-- Pandas `a > b` with null treated as false. -/
def oGT : Option ℚ → Option ℚ → Bool
  | some x, some y => decide (y < x)
  | _, _ => false

/-- Pandas `a < b` with null treated as false. -/
def oLT : Option ℚ → Option ℚ → Bool
  | some x, some y => decide (x < y)
  | _, _ => false

/-- Pandas `a >= b` with null treated as false. -/
def oGE : Option ℚ → Option ℚ → Bool
  | some x, some y => decide (y ≤ x)
  | _, _ => false

/-- Pandas `a <= b` with null treated as false. -/
def oLE : Option ℚ → Option ℚ → Bool
  | some x, some y => decide (x ≤ y)
  | _, _ => false

/-! ### Watchlist scoring (`scripts/build_watchlist.py`)

`daily_latest` (one latest daily indicator row per symbol, from
`latest_signals.csv`) is left-joined with the latest weekly row per symbol.
The merge at lines 58–63 selects the weekly columns
`sma_50, sma_200, drawdown, dist_to_52w_high, vol_20` and uses
`suffixes=("", "_weekly")`: every one of those five names already exists in
`daily_latest`, so the daily columns keep their plain names and the weekly
columns all receive the `_weekly` suffix. -/

/-- Latest daily indicator row for one symbol, restricted to the columns
`build_watchlist.py` reads (all produced by `per_symbol`, hence always
present in `latest_signals.csv`; values may be NaN = `none`). -/
structure LatestDaily where
  symbol : String
  close : Option ℚ
  sma_50 : Option ℚ
  sma_200 : Option ℚ
  rsi_14 : Option ℚ
  macd_hist : Option ℚ
  dist_to_52w_high : Option ℚ
  drawdown : Option ℚ
  trend_long : String
  deriving DecidableEq

/-- Weekly columns selected by the merge in `build_watchlist.main`
(line 59). -/
structure WeeklyCols where
  sma_50 : Option ℚ
  sma_200 : Option ℚ
  drawdown : Option ℚ
  dist_to_52w_high : Option ℚ
  vol_20 : Option ℚ
  deriving DecidableEq

/-- Result row of the left join at `build_watchlist.py` lines 58–63.
`pandas.merge(..., suffixes=("", "_weekly"))`: the overlapping columns keep
the daily values under their plain names and the weekly values under the
`_weekly` names.  A symbol with no weekly counterpart (left join miss) has
all `_weekly` fields null. -/
structure MergedRow where
  symbol : String
  close : Option ℚ
  sma_50 : Option ℚ
  sma_200 : Option ℚ
  rsi_14 : Option ℚ
  macd_hist : Option ℚ
  dist_to_52w_high : Option ℚ
  drawdown : Option ℚ
  trend_long : String
  sma_50_weekly : Option ℚ
  sma_200_weekly : Option ℚ
  drawdown_weekly : Option ℚ
  dist_to_52w_high_weekly : Option ℚ
  vol_20_weekly : Option ℚ
  deriving DecidableEq

/-- Left join of one daily row with its (optional) weekly row,
`build_watchlist.py` lines 58–63. -/
def mergeRow (d : LatestDaily) (w : Option WeeklyCols) : MergedRow where
  symbol := d.symbol
  close := d.close
  sma_50 := d.sma_50
  sma_200 := d.sma_200
  rsi_14 := d.rsi_14
  macd_hist := d.macd_hist
  dist_to_52w_high := d.dist_to_52w_high
  drawdown := d.drawdown
  trend_long := d.trend_long
  sma_50_weekly := match w with | some x => x.sma_50 | none => none
  sma_200_weekly := match w with | some x => x.sma_200 | none => none
  drawdown_weekly := match w with | some x => x.drawdown | none => none
  dist_to_52w_high_weekly := match w with | some x => x.dist_to_52w_high | none => none
  vol_20_weekly := match w with | some x => x.vol_20 | none => none

/-- Composite score, `build_watchlist.py` lines 68–93.  Each term reads the
column name written in the source; after the merge those plain names hold
the DAILY values (the weekly values sit in the unused `_weekly` columns).
The `if c in merged.columns` guards in the source are always true because
`latest_signals.csv` always contains these columns. -/
def score (m : MergedRow) : ℤ :=
  (if oGT m.sma_50 m.sma_200 then 3 else 0)                                  -- line 71
    + (if oGT m.close m.sma_50 then 1 else 0)                                -- line 75
    + (if oGE m.rsi_14 (some 40) && oLE m.rsi_14 (some 65) then 1 else 0)    -- line 79
    + (if oGT m.dist_to_52w_high (some (-(1 : ℚ) / 4)) then 1 else 0)        -- line 83
    - (if oLT m.drawdown (some (-(7 : ℚ) / 20)) then 1 else 0)               -- line 87
    + (if oGT m.macd_hist (some 0) then 1 else 0)                            -- line 91

/-- Merged row whose every indicator field is null. -/
def nullMerged : MergedRow where
  symbol := "X"
  close := none
  sma_50 := none
  sma_200 := none
  rsi_14 := none
  macd_hist := none
  dist_to_52w_high := none
  drawdown := none
  trend_long := "DOWN"
  sma_50_weekly := none
  sma_200_weekly := none
  drawdown_weekly := none
  dist_to_52w_high_weekly := none
  vol_20_weekly := none

/-- Daily latest row whose daily `sma_50 > sma_200` but with every other
indicator null (instrument C1ex). -/
def exDaily : LatestDaily where
  symbol := "C1EX"
  close := none
  sma_50 := some 10
  sma_200 := some 5
  rsi_14 := none
  macd_hist := none
  dist_to_52w_high := none
  drawdown := none
  trend_long := "UP"

/-- Weekly latest row for the same instrument whose weekly
`sma_50 < sma_200` (weekly long-term trend is down). -/
def exWeekly : WeeklyCols where
  sma_50 := some 1
  sma_200 := some 2
  drawdown := none
  dist_to_52w_high := none
  vol_20 := none

/-! ### Watchlist ranking (`build_watchlist.py` line 121)

`out.sort_values(["score", "company_name"], ascending=[False, True]).head(20)`.
`company_name` comes from a left join with the company master and can be
null; pandas sorts nulls last (`na_position="last"`).  No other column
takes part in the sort. -/

/-- Output row of the watchlist as far as ranking is concerned. -/
structure WLRow where
  company_name : Option String
  symbol : String
  score : ℤ
  trend_long : String
  deriving DecidableEq

/-- Ascending comparison on the nullable `company_name` column, nulls last
(pandas default `na_position="last"`). -/
def nameLE : Option String → Option String → Bool
  | _, none => true
  | none, some _ => false
  | some a, some b => decide (a ≤ b)

/-- Sort key of `build_watchlist.py` line 121: `score` descending, then
`company_name` ascending. -/
def wlLE (a b : WLRow) : Bool :=
  decide (b.score < a.score) || (decide (a.score = b.score) && nameLE a.company_name b.company_name)

/-- Ranking, `build_watchlist.py` line 121: stable sort by the key above,
then `head(20)`. -/
def rankWatchlist (rows : List WLRow) : List WLRow :=
  (rows.mergeSort wlLE).take 20

/-- Scenario instrument A: score 5, company "Alpha". -/
def wlAlpha : WLRow := ⟨some "Alpha", "ALP", 5, "DOWN"⟩

/-- Scenario instrument B: score 5, company "Beta". -/
def wlBeta : WLRow := ⟨some "Beta", "BET", 5, "UP"⟩

/-! ### Coverage status (`scripts/build_coverage_report.py` lines 31–33)

```
summary["status"] = "OK"
summary.loc[summary["last_update"] < today - timedelta(days=2), "status"] = "STALE"
summary.loc[summary["days_of_data"] < 20, "status"] = "LOW_HISTORY"
```
Sequential overriding assignment; `today` is the max date of the whole
indicator table. -/

/-- Status of one instrument in the coverage report; dates are day
numbers. -/
def coverageStatus (lastUpdate today : ℤ) (daysOfData : ℕ) : String :=
  let s0 := "OK"
  let s1 := if lastUpdate < today - 2 then "STALE" else s0
  let s2 := if daysOfData < 20 then "LOW_HISTORY" else s1
  s2

/-! ### Schema checks of `build_indicators.main` (lines 120–137)

The body runs, in order:
1. `df["date"] = pd.to_datetime(df["date"])` — a missing `date` column
   raises `KeyError("date")` here;
2. the `close`/`close_price` fallback, raising
   `ValueError("Missing close/close_price. Columns: ...")` when both are
   absent (line 129);
3. `df["symbol"] = df["symbol"]...` — a missing `symbol` column raises
   `KeyError("symbol")` here;
4. the explicit required-column check
   `missing = {"date", "symbol", "close"} - set(df.columns)` raising
   `ValueError(f"Missing columns: {missing}...")` (line 137). -/

/-- Errors the schema prefix of `build_indicators.main` can raise. -/
inductive SchemaError where
  /-- Python `KeyError` from a direct `df[col]` access. -/
  | keyError (col : String) : SchemaError
  /-- `ValueError` of line 129 (close/close_price both absent). -/
  | missingClose (cols : List String) : SchemaError
  /-- `ValueError` of line 137 naming the missing-column set. -/
  | missingColumns (missing cols : List String) : SchemaError
  deriving DecidableEq

/-- Close-column fallback, `build_indicators.main` lines 125–129. -/
def resolveClose (cols : List String) : Except SchemaError (List String) :=
  if "close" ∈ cols then .ok cols
  else if "close_price" ∈ cols then .ok (cols ++ ["close"])
  else .error (.missingClose cols)

/-- Column-access/validation prefix of `build_indicators.main`
(lines 120–137), as a function of the raw table's column set.  Returns the
resolved column list or the first error raised. -/
def checkSchema (cols : List String) : Except SchemaError (List String) :=
  if "date" ∉ cols then .error (.keyError "date")
  else
    match resolveClose cols with
    | .error e => .error e
    | .ok cols2 =>
      if "symbol" ∉ cols2 then .error (.keyError "symbol")
      else
        let missing := ["date", "symbol", "close"].filter (fun c => c ∉ cols2)
        if missing ≠ [] then .error (.missingColumns missing cols2)
        else .ok cols2

/-- Recognizer for the line-137 error (the one that names the
missing-column set). -/
def isMissingColumnsError : Except SchemaError (List String) → Bool
  | .error (.missingColumns _ _) => true
  | _ => false

/-! ### Per-symbol driver loop (`build_indicators.main` lines 140–143)

```
daily_parts = []
for symbol, g in df.groupby("symbol", sort=False):
    daily_parts.append(per_symbol(symbol, g))
out = pd.concat(daily_parts, ignore_index=True)
```
There is no `try`/`except`: a Python exception raised by `per_symbol` for
any one group propagates out of the loop and aborts `main`.  The loop is
modelled with `Except` as the effect of the per-symbol computation. -/

/-- Driver loop over the per-symbol groups.  `perSym` stands for the call
`per_symbol(symbol, g)`; an exception (`Except.error`) anywhere propagates
and no output list is produced. -/
def dailyLoop {α β ε : Type} (perSym : String → α → Except ε β) :
    List (String × α) → Except ε (List β)
  | [] => .ok []
  | (s, g) :: rest =>
    match perSym s g with
    | .error e => .error e
    | .ok r =>
      match dailyLoop perSym rest with
      | .error e => .error e
      | .ok out => .ok (r :: out)

/-- Per-symbol computation that raises on instrument "A" (standing for a
pathological series) and succeeds on every other instrument. -/
def failingPerSymbol : String → List ℚ → Except String ℕ :=
  fun s _ => if s = "A" then .error "boom" else .ok 0

/-! ### Pandas float scalars with NaN and infinities

`build_indicators.py` computes over float64 Series.  The claims about
division by zero need the distinction between NaN (written to CSV as an
empty field = null) and ±∞ (written as `inf`), so those computations are
modelled over `PF`.  Rules follow IEEE-754 as implemented by NumPy; `ℚ`
has a single zero, and no computation below divides by a negative zero, so
signed zeros are not modelled. -/

/-- Pandas float scalar: NaN, +∞, −∞, or a finite value. -/
inductive PF where
  | nan : PF
  | pinf : PF
  | ninf : PF
  | val : ℚ → PF
  deriving DecidableEq

/-- Float addition. -/
def padd : PF → PF → PF
  | .nan, _ => .nan
  | _, .nan => .nan
  | .pinf, .ninf => .nan
  | .ninf, .pinf => .nan
  | .pinf, _ => .pinf
  | _, .pinf => .pinf
  | .ninf, _ => .ninf
  | _, .ninf => .ninf
  | .val a, .val b => .val (a + b)

/-- Float negation. -/
def pneg : PF → PF
  | .nan => .nan
  | .pinf => .ninf
  | .ninf => .pinf
  | .val a => .val (-a)

/-- Float subtraction. -/
def psub (a b : PF) : PF := padd a (pneg b)

/-- Float division: `x/0` is `±∞` for `x ≠ 0` and NaN for `x = 0`; any NaN
operand propagates. -/
def pdiv : PF → PF → PF
  | .nan, _ => .nan
  | _, .nan => .nan
  | .pinf, .pinf => .nan
  | .pinf, .ninf => .nan
  | .ninf, .pinf => .nan
  | .ninf, .ninf => .nan
  | .pinf, .val y => if y < 0 then .ninf else .pinf
  | .ninf, .val y => if y < 0 then .pinf else .ninf
  | .val _, .pinf => .val 0
  | .val _, .ninf => .val 0
  | .val x, .val y =>
    if y = 0 then (if x = 0 then .nan else if 0 < x then .pinf else .ninf)
    else .val (x / y)

/-- Test for an infinite float. -/
def isInfinite : PF → Bool
  | .pinf => true
  | .ninf => true
  | _ => false

/-! ### RSI (`build_indicators.rsi`, lines 11–20)

```
delta = series.diff()
gain = delta.clip(lower=0)
loss = (-delta).clip(lower=0)
avg_gain = gain.ewm(alpha=1/period, adjust=False).mean()
avg_loss = loss.ewm(alpha=1/period, adjust=False).mean()
rs = avg_gain / avg_loss.replace(0, np.nan)
return 100 - (100 / (1 + rs))
```
`diff()` leaves NaN at row 0, so the EWMA seeds at row 1; rows `t ≥ 1`
follow the recurrence `y = (1-α)·y_prev + α·x`.  Gains and losses are
exact rationals, so the EWMA runs over `ℚ`; the final expression is
evaluated over `PF` to track the NaN introduced by `replace(0, nan)`. -/

/-- Successive differences `close[t] - close[t-1]` (the non-NaN part of
`series.diff()`). -/
def diffs : List ℚ → List ℚ
  | a :: b :: rest => (b - a) :: diffs (b :: rest)
  | _ => []

/-- Per-step gains `delta.clip(lower=0)`. -/
def gains (prices : List ℚ) : List ℚ := (diffs prices).map (fun d => max d 0)

/-- Per-step losses `(-delta).clip(lower=0)`. -/
def losses (prices : List ℚ) : List ℚ := (diffs prices).map (fun d => max (-d) 0)

/-- EWMA recurrence continuation: each step is
`(1-α)·prev + α·x` (pandas `ewm(alpha=α, adjust=False)`). -/
def ewmaFrom (a prev : ℚ) : List ℚ → List ℚ
  | [] => []
  | x :: xs =>
    let y := (1 - a) * prev + a * x
    y :: ewmaFrom a y xs

/-- EWMA with `adjust=False`, seeded by the first value. -/
def ewma (a : ℚ) : List ℚ → List ℚ
  | [] => []
  | x :: xs => x :: ewmaFrom a x xs

/-- `avg_loss.replace(0, np.nan)` applied to one value. -/
def replaceZeroWithNan (x : ℚ) : PF := if x = 0 then .nan else .val x

/-- RSI formula at one row given the smoothed gain and loss:
`100 - 100/(1 + avg_gain/avg_loss.replace(0, nan))`, over pandas float
scalars. -/
def rsiAt (g l : ℚ) : PF :=
  psub (.val 100) (pdiv (.val 100) (padd (.val 1) (pdiv (.val g) (replaceZeroWithNan l))))

/-- RSI column for a price series: NaN at row 0 (from `diff()`), then the
formula over the Wilder-smoothed (α = 1/14) gains and losses. -/
def rsiList (prices : List ℚ) : List PF :=
  PF.nan ::
    ((ewma (1 / 14) (gains prices)).zip (ewma (1 / 14) (losses prices))).map
      (fun p => rsiAt p.1 p.2)

/-! ### Volume spike (`build_indicators.per_symbol`, lines 80–82)

```
g["vol_sma_20"] = g["volume"].rolling(20).mean()
g["vol_spike"] = g["volume"] / g["vol_sma_20"]
```
`rolling(20)` is a trailing window of 20 rows including the current row,
NaN until filled. -/

/-- Trailing `k`-row mean at index `i` (`rolling(k).mean()`): defined once
`i + 1 ≥ k`, averaging `xs[i+1-k .. i]`. -/
def rollingMean (k : ℕ) (xs : List ℚ) (i : ℕ) : Option ℚ :=
  if k ≤ i + 1 then some (((xs.take (i + 1)).drop (i + 1 - k)).sum / k) else none

/-- Volume-spike column: `volume / rolling(20).mean()` at every row, over
pandas float scalars (NaN while the window is unfilled). -/
def volSpike (vols : List ℚ) : List PF :=
  (List.range vols.length).map (fun i =>
    match rollingMean 20 vols i with
    | none => PF.nan
    | some m => pdiv (.val (vols.getD i 0)) (.val m))

/-- Volume series whose first 20 rows are `[-19, 1, 1, …, 1]`: the 20-row
mean at index 19 is exactly 0 while the row's volume is 1. -/
def exVols : List ℚ := -19 :: List.replicate 19 1

/-! ### Daily→weekly resampler (`build_indicators.to_weekly_from_daily`,
lines 97–115)

```
g = g.sort_values("date").set_index("date")
w = g.resample("W-FRI").last().dropna(subset=["close"]).copy()
```
`resample("W-FRI")` bins rows into calendar weeks ending Friday;
`.last()` takes, per column independently, the last non-null value in the
bin (a bin with no rows yields an all-NaN row); `dropna(subset=["close"])`
then removes every bin whose resulting `close` is NaN — in particular all
empty weeks.  The `yahoo_ticker`/`source` string columns are overwritten
after the resample (lines 106–113) and are not modelled; one value column
(`volume`) represents the optional columns. -/

/-- Daily input row for the resampler: a date plus a required-but-nullable
`close` and an optional `volume`. -/
structure DRow where
  date : ℤ
  close : Option ℚ
  volume : Option ℚ
  deriving DecidableEq

/-- Weekly output row: the Friday bin label, the binned `close` (non-null
after `dropna`), and the binned `volume`. -/
structure WRow where
  date : ℤ
  close : ℚ
  volume : Option ℚ
  deriving DecidableEq

/-- Friday (day ≡ 1 mod 7) on or after day `d`: the label of the `W-FRI`
bin containing `d`. -/
def fridayOf (d : ℤ) : ℤ := d + (1 - d) % 7

/-- Date order on daily rows. -/
def dateLE (a b : DRow) : Bool := decide (a.date ≤ b.date)

/-- `g.sort_values("date")` at line 99. -/
def sortByDate (rows : List DRow) : List DRow := rows.mergeSort dateLE

/-- Last non-null value of a column within a bin (`GroupBy.last`). -/
def lastVal (xs : List (Option ℚ)) : Option ℚ :=
  xs.foldl (fun acc x => match x with | some v => some v | none => acc) none

/-- First-occurrence dedup, keeping order. -/
def dedupFirst : List ℤ → List ℤ
  | [] => []
  | x :: xs => x :: (dedupFirst xs).filter (fun y => y != x)

/-- Occupied `W-FRI` bin labels, in date order. -/
def weekBins (rows : List DRow) : List ℤ :=
  dedupFirst ((sortByDate rows).map (fun r => fridayOf r.date))

/-- Rows of one bin, in date order. -/
def binRows (rows : List DRow) (f : ℤ) : List DRow :=
  (sortByDate rows).filter (fun r => fridayOf r.date == f)

/-- Weekly row of one bin: per column the last non-null value in the bin
(`resample("W-FRI").last()`), or nothing when the binned `close` is null
(`dropna(subset=["close"])`). -/
def weeklyRowAt (rows : List DRow) (f : ℤ) : Option WRow :=
  match lastVal ((binRows rows f).map (fun r => r.close)) with
  | none => none
  | some c => some ⟨f, c, lastVal ((binRows rows f).map (fun r => r.volume))⟩

/-- The resampler `to_weekly_from_daily` (lines 97–115): per occupied bin,
take the last non-null value of each column; drop the bin if the resulting
`close` is null.  Empty bins produce all-NaN rows in pandas and are
likewise dropped by the `close` dropna, so only occupied bins appear. -/
def to_weekly_from_daily (rows : List DRow) : List WRow :=
  (weekBins rows).filterMap (weeklyRowAt rows)

/-- Two rows of one calendar week (days 0 and 1 are the Thursday and
Friday of bin 1): the later row has a null `volume`, the earlier row a
non-null one. -/
def exDRows : List DRow := [⟨0, some 1, some 5⟩, ⟨1, some 2, none⟩]

/-! ### Ingestion (`collect_prices.main` lines 207–218 +
`build_indicators.main` lines 131–132)

`collect_prices` appends the new rows after the existing file and runs
`drop_duplicates(subset=["date", "symbol"], keep="last")`: for every
(date, symbol) key only the last occurrence survives, at its original
position.  `build_indicators.main` then sorts by `["symbol", "date"]` and
groups by symbol, so the per-instrument series is the date-sorted list of
the surviving rows of that symbol. -/

/-- Raw price row as written by `collect_prices` (`close_price` renamed to
`close`; dates are day numbers, order-isomorphic to the `YYYY-MM-DD`
strings the file stores). -/
structure PriceRow where
  date : ℤ
  symbol : String
  close : ℚ
  deriving DecidableEq

/-- Key equality used by `drop_duplicates(subset=["date", "symbol"])`. -/
def sameKey (a b : PriceRow) : Bool := a.date == b.date && a.symbol == b.symbol

/-- `drop_duplicates(keep="last")`: a row survives exactly when no later
row has the same key; surviving rows keep their order. -/
def dropDupKeepLast : List PriceRow → List PriceRow
  | [] => []
  | r :: rest =>
    if rest.any (sameKey r) then dropDupKeepLast rest else r :: dropDupKeepLast rest

/-- One ingestion step: append the newly collected rows after the existing
table, then dedup keep-last (lines 210–216). -/
def ingest (old new : List PriceRow) : List PriceRow := dropDupKeepLast (old ++ new)

/-- Date order on price rows. -/
def priceDateLE (a b : PriceRow) : Bool := decide (a.date ≤ b.date)

/-- Per-instrument series as consumed by the indicator engine: the rows of
one symbol, date-sorted (`build_indicators.main` lines 131–132 plus the
groupby). -/
def instrumentSeries (sym : String) (rows : List PriceRow) : List PriceRow :=
  (rows.filter (fun r => r.symbol == sym)).mergeSort priceDateLE

/-- Last row of a list carrying the given (symbol, date) key, if any. -/
def lastWithKey (sym : String) (d : ℤ) : List PriceRow → Option PriceRow
  | [] => none
  | r :: rest =>
    match lastWithKey sym d rest with
    | some x => some x
    | none => if r.symbol = sym ∧ r.date = d then some r else none

/-! ## Theorems -/

/-- C1: evaluation at the failing input.  Instrument `exDaily`/`exWeekly`
has daily `sma_50 = 10 > 5 = sma_200` but weekly `sma_50 = 1 < 2 =
sma_200`, and every other scored field null.  The claim says the +3 term
fires exactly when the WEEKLY `sma_50` exceeds the WEEKLY `sma_200`, so
this instrument should score 0; the code scores it 3, because the merge
left the daily values under the plain column names and parked the weekly
values in the `_weekly` columns that the scoring never reads. -/
theorem c1_weekly_terms_read_daily_columns :
    score (mergeRow exDaily (some exWeekly)) = 3
      ∧ oGT exWeekly.sma_50 exWeekly.sma_200 = false
      ∧ (mergeRow exDaily (some exWeekly)).sma_50_weekly = exWeekly.sma_50
      ∧ (mergeRow exDaily (some exWeekly)).sma_200_weekly = exWeekly.sma_200 := by
  refine ⟨by decide, by decide, rfl, rfl⟩

/-- C10: the composite score is total (an integer, never null) and lies in
`[-1, 7]` for every merged row, and a row whose every scored field is null
scores exactly 0 (each null predicate contributes 0). -/
theorem c10_score_total_and_bounded :
    (∀ m : MergedRow, -1 ≤ score m ∧ score m ≤ 7) ∧ score nullMerged = 0 := by
  constructor
  · intro m
    unfold score
    split_ifs <;> omega
  · decide

/-- C5: coverage status assignment is sequential-overriding: fewer than 20
rows yields `LOW_HISTORY` regardless of staleness (the history rule runs
last and overwrites `STALE`), staleness alone yields `STALE`, and neither
condition yields `OK`. -/
theorem c5_coverage_status_override :
    ∀ (lastUpdate today : ℤ) (daysOfData : ℕ),
      coverageStatus lastUpdate today daysOfData =
        if daysOfData < 20 then "LOW_HISTORY"
        else if lastUpdate < today - 2 then "STALE" else "OK" := by
  intro lu t d
  unfold coverageStatus
  split_ifs <;> rfl

/-- Helper: the close fallback only succeeds with a column list containing
`close` and all original columns. -/
lemma resolveClose_ok {cols cols2 : List String}
    (h : resolveClose cols = .ok cols2) :
    "close" ∈ cols2 ∧ ∀ c ∈ cols, c ∈ cols2 := by
  unfold resolveClose at h
  split_ifs at h with h1 h2
  · cases h
    exact ⟨h1, fun c hc => hc⟩
  · cases h
    exact ⟨List.mem_append_right _ (by simp), fun c hc => List.mem_append_left _ hc⟩

/-- Helper: the close fallback fails only with the line-129 error. -/
lemma resolveClose_error {cols : List String} {e : SchemaError}
    (h : resolveClose cols = .error e) : e = .missingClose cols := by
  unfold resolveClose at h
  split_ifs at h
  simp_all

/-- C8: the `ValueError` at `build_indicators.py` line 137 — the only
error that names the missing-column set — is unreachable (every run that
gets there has an empty missing set, because the earlier `df["date"]`,
close-fallback and `df["symbol"]` accesses already raised), and on a raw
table having only a `close` column the run aborts with `KeyError("date")`,
naming a single column even though both `date` and `symbol` are missing. -/
theorem c8_missing_column_error_shape :
    (∀ cols : List String, isMissingColumnsError (checkSchema cols) = false)
      ∧ checkSchema ["close"] = Except.error (SchemaError.keyError "date") := by
  constructor
  · intro cols
    by_cases h1 : "date" ∈ cols
    · unfold checkSchema
      rw [if_neg (by simpa using h1)]
      rcases hrc : resolveClose cols with e | cols2
      · obtain rfl := resolveClose_error hrc
        rfl
      · dsimp only
        obtain ⟨hclose, hsub⟩ := resolveClose_ok hrc
        have hdate : "date" ∈ cols2 := hsub _ h1
        by_cases h2 : "symbol" ∈ cols2
        · rw [if_neg (by simpa using h2)]
          have hmiss :
              List.filter (fun c => decide (c ∉ cols2)) ["date", "symbol", "close"] = [] := by
            simp only [List.filter_eq_nil_iff, decide_eq_true_eq, not_not]
            intro c hc
            simp only [List.mem_cons, List.not_mem_nil, or_false] at hc
            rcases hc with rfl | rfl | rfl
            · exact hdate
            · exact h2
            · exact hclose
          simp only [hmiss]
          rfl
        · rw [if_pos (by simpa using h2)]
          rfl
    · unfold checkSchema
      rw [if_pos (by simpa using h1)]
      rfl
  · rfl

/-- C3: the claim is false on the code.  With a per-symbol computation
that raises on instrument "A" and succeeds on instrument "B", the daily
driver loop aborts the whole run (`Except.error`): instrument "B" is
never emitted even though its own computation succeeds. -/
theorem c3_counterexample :
    dailyLoop failingPerSymbol [("A", ([] : List ℚ)), ("B", [])] = Except.error "boom"
      ∧ failingPerSymbol "B" [] = Except.ok 0 := by
  constructor <;> rfl

/-- C3 amended: an instrument-local exception during per-symbol indicator
computation is not caught — if any group's computation raises, the entire
daily loop aborts with an error and produces no output at all. -/
theorem c3_exception_aborts_run {α β ε : Type}
    (f : String → α → Except ε β) (groups : List (String × α))
    (s : String) (g : α) (e : ε)
    (hmem : (s, g) ∈ groups) (herr : f s g = .error e) :
    ∃ e2, dailyLoop f groups = Except.error e2 := by
  induction groups with
  | nil => cases hmem
  | cons hd tl ih =>
    obtain ⟨s1, g1⟩ := hd
    rcases List.mem_cons.mp hmem with heq | htl
    · obtain ⟨rfl, rfl⟩ := Prod.mk.injEq .. ▸ heq
      exact ⟨e, by simp [dailyLoop, herr]⟩
    · obtain ⟨e2, h2⟩ := ih htl
      rcases hf : f s1 g1 with e3 | r
      · exact ⟨e3, by simp [dailyLoop, hf]⟩
      · exact ⟨e2, by simp [dailyLoop, hf, h2]⟩

/-- C3 witness: the amended theorem applied at a concrete input. -/
theorem c3_witness :
    ∃ e2, dailyLoop failingPerSymbol [("A", ([] : List ℚ)), ("B", [])] = Except.error e2 :=
  c3_exception_aborts_run failingPerSymbol _ "A" [] "boom" (by simp) rfl

/-- Helper: `nameLE` is total. -/
lemma nameLE_total (a b : Option String) : nameLE a b || nameLE b a := by
  cases a <;> cases b <;> simp [nameLE]
  exact le_total _ _

/-- Helper: `nameLE` is transitive. -/
lemma nameLE_trans {a b c : Option String}
    (h1 : nameLE a b) (h2 : nameLE b c) : nameLE a c := by
  cases a <;> cases b <;> cases c <;> simp_all [nameLE]
  exact le_trans h1 h2

/-- Helper: the watchlist sort key is transitive. -/
lemma wlLE_trans (a b c : WLRow) (h1 : wlLE a b) (h2 : wlLE b c) : wlLE a c := by
  simp only [wlLE, Bool.or_eq_true, Bool.and_eq_true, decide_eq_true_eq] at h1 h2 ⊢
  rcases h1 with h1 | ⟨h1e, h1n⟩ <;> rcases h2 with h2 | ⟨h2e, h2n⟩
  · exact Or.inl (h2.trans h1)
  · exact Or.inl (h2e ▸ h1)
  · exact Or.inl (h1e ▸ h2)
  · exact Or.inr ⟨h1e.trans h2e, nameLE_trans h1n h2n⟩

/-- Helper: the watchlist sort key is total. -/
lemma wlLE_total (a b : WLRow) : wlLE a b || wlLE b a := by
  simp only [wlLE, Bool.or_eq_true, Bool.and_eq_true, decide_eq_true_eq]
  rcases lt_trichotomy a.score b.score with h | h | h
  · exact Or.inr (Or.inl h)
  · rcases Bool.or_eq_true .. ▸ nameLE_total a.company_name b.company_name with hn | hn
    · exact Or.inl (Or.inr ⟨h, hn⟩)
    · exact Or.inr (Or.inr ⟨h.symm, hn⟩)
  · exact Or.inl (Or.inl h)

/-- C2 (amended): the watchlist is sorted by score descending with
company name ascending (nulls last) as the only tie-break — in particular,
of two entries with equal score the alphabetically smaller company name
ranks first — and is truncated to at most 20 entries; `trend_long` plays
no role.  The scenario of the spec holds: A (score 5, "Alpha") ranks above
B (score 5, "Beta"). -/
theorem c2_ranking_amended :
    (∀ rows : List WLRow,
        List.Pairwise (fun a b => wlLE a b) (rankWatchlist rows)
          ∧ (rankWatchlist rows).length ≤ 20)
      ∧ rankWatchlist [wlBeta, wlAlpha] = [wlAlpha, wlBeta] := by
  refine ⟨fun rows => ⟨?_, ?_⟩, ?_⟩
  · exact List.Pairwise.sublist (List.take_sublist 20 _)
      (List.sorted_mergeSort wlLE_trans wlLE_total rows)
  · simp [rankWatchlist]
  · with_unfolding_all rfl

/-- C2: the claim as stated is false on the code.  With equal scores,
instrument A (company "Alpha", `trend_long = "DOWN"`) and instrument B
(company "Beta", `trend_long = "UP"`), a trend-descending secondary
tie-break would put B first; the code ranks A first because the sort keys
are only `score` and `company_name`. -/
theorem c2_counterexample :
    wlAlpha.score = wlBeta.score
      ∧ wlAlpha.trend_long < wlBeta.trend_long
      ∧ rankWatchlist [wlBeta, wlAlpha] = [wlAlpha, wlBeta] := by
  exact ⟨rfl, by with_unfolding_all decide, by with_unfolding_all rfl⟩

/-- Helper: an EWMA continuation over nonnegative inputs from a
nonnegative seed stays nonnegative (for 0 ≤ α ≤ 1). -/
lemma ewmaFrom_nonneg {a : ℚ} (ha0 : 0 ≤ a) (ha1 : a ≤ 1) :
    ∀ {prev : ℚ} {l : List ℚ}, 0 ≤ prev → (∀ x ∈ l, 0 ≤ x) →
      ∀ y ∈ ewmaFrom a prev l, 0 ≤ y := by
  intro prev l
  induction l generalizing prev with
  | nil =>
    intro _ _ y hy
    simp [ewmaFrom] at hy
  | cons x xs ih =>
    intro hp hl y hy
    have hx : 0 ≤ x := hl x (by simp)
    have hy0 : 0 ≤ (1 - a) * prev + a * x := by
      have h1 := mul_nonneg (by linarith : (0 : ℚ) ≤ 1 - a) hp
      have h2 := mul_nonneg ha0 hx
      linarith
    simp only [ewmaFrom] at hy
    rcases List.mem_cons.mp hy with rfl | hy2
    · exact hy0
    · exact ih hy0 (fun z hz => hl z (by simp [hz])) y hy2

/-- Helper: an EWMA of nonnegative inputs is nonnegative. -/
lemma ewma_nonneg {a : ℚ} (ha0 : 0 ≤ a) (ha1 : a ≤ 1) {l : List ℚ}
    (hl : ∀ x ∈ l, 0 ≤ x) : ∀ y ∈ ewma a l, 0 ≤ y := by
  cases l with
  | nil => intro y hy; simp [ewma] at hy
  | cons x xs =>
    intro y hy
    simp only [ewma] at hy
    rcases List.mem_cons.mp hy with rfl | hy2
    · exact hl y (by simp)
    · exact ewmaFrom_nonneg ha0 ha1 (hl x (by simp)) (fun z hz => hl z (by simp [hz])) y hy2

/-- Helper: clipped gains are nonnegative. -/
lemma gains_nonneg {prices : List ℚ} : ∀ x ∈ gains prices, 0 ≤ x := by
  intro x hx
  obtain ⟨d, _, rfl⟩ := List.mem_map.mp hx
  exact le_max_right d 0

/-- Helper: clipped losses are nonnegative. -/
lemma losses_nonneg {prices : List ℚ} : ∀ x ∈ losses prices, 0 ≤ x := by
  intro x hx
  obtain ⟨d, _, rfl⟩ := List.mem_map.mp hx
  exact le_max_right (-d) 0

/-- Helper: with nonnegative smoothed gain and loss, the RSI formula
yields NaN (zero loss) or a finite value in [0, 100] — never ±∞. -/
lemma rsiAt_nan_or_bounded {g l : ℚ} (hg : 0 ≤ g) (hl : 0 ≤ l) :
    rsiAt g l = PF.nan ∨ ∃ v : ℚ, rsiAt g l = PF.val v ∧ 0 ≤ v ∧ v ≤ 100 := by
  by_cases hl0 : l = 0
  · left
    simp [rsiAt, replaceZeroWithNan, hl0, pdiv, padd, psub, pneg]
  · right
    have hlpos : 0 < l := lt_of_le_of_ne hl (Ne.symm hl0)
    have hrs : 0 ≤ g / l := div_nonneg hg hl
    have hden : (0 : ℚ) < 1 + g / l := by linarith
    have hfrac0 : 0 ≤ 100 / (1 + g / l) := div_nonneg (by norm_num) hden.le
    have hfrac100 : 100 / (1 + g / l) ≤ 100 := by
      rw [div_le_iff₀ hden]
      have := mul_nonneg (by norm_num : (0 : ℚ) ≤ 100) hrs
      linarith
    refine ⟨100 - 100 / (1 + g / l), ?_, by linarith, by linarith⟩
    rw [rsiAt, replaceZeroWithNan, if_neg hl0]
    rw [show pdiv (.val g) (.val l) = .val (g / l) by simp [pdiv, hl0]]
    rw [show padd (.val 1) (.val (g / l)) = .val (1 + g / l) by simp [padd]]
    rw [show pdiv (.val 100) (.val (1 + g / l)) = .val (100 / (1 + g / l)) by
      simp [pdiv, hden.ne']]
    simp [psub, padd, pneg]
    ring

/-- Helper: every element of the RSI column is NaN or comes from the
formula applied to a nonnegative smoothed gain/loss pair. -/
lemma rsiList_mem {prices : List ℚ} {x : PF} (hx : x ∈ rsiList prices) :
    x = PF.nan ∨ ∃ g l : ℚ, 0 ≤ g ∧ 0 ≤ l ∧ x = rsiAt g l := by
  simp only [rsiList, List.mem_cons] at hx
  rcases hx with rfl | hx
  · exact Or.inl rfl
  · obtain ⟨⟨g, l⟩, hmem, rfl⟩ := List.mem_map.mp hx
    have hgl := List.of_mem_zip hmem
    exact Or.inr ⟨g, l,
      ewma_nonneg (by norm_num) (by norm_num) gains_nonneg g hgl.1,
      ewma_nonneg (by norm_num) (by norm_num) losses_nonneg l hgl.2, rfl⟩

/-- C9: whenever `rsi_14` is defined (a finite value, not the NaN produced
at row 0 or on zero smoothed loss), it lies in [0, 100].  The universal
quantification covers monotone all-gain series (RSI undefined, loss zero)
and all-loss series (RSI = 0) as special cases. -/
theorem c9_rsi_bounds (prices : List ℚ) (v : ℚ)
    (hv : PF.val v ∈ rsiList prices) : 0 ≤ v ∧ v ≤ 100 := by
  rcases rsiList_mem hv with h | ⟨g, l, hg, hl, h⟩
  · exact absurd h (by simp)
  · rcases rsiAt_nan_or_bounded hg hl with h2 | ⟨w, h2, hw0, hw100⟩
    · rw [h2] at h
      exact absurd h (by simp)
    · rw [h2] at h
      obtain rfl : v = w := by injection h
      exact ⟨hw0, hw100⟩

/-- C9 witness: the price series [4, 2] has a defined RSI value 0 at its
last row, and the bounds hold there. -/
theorem c9_witness :
    PF.val 0 ∈ rsiList [4, 2] ∧ ((0 : ℚ) ≤ 0 ∧ (0 : ℚ) ≤ 100) :=
  ⟨by with_unfolding_all decide,
   c9_rsi_bounds [4, 2] 0 (by with_unfolding_all decide)⟩

/-- Helper: element access into the volume-spike column. -/
lemma volSpike_getD (vols : List ℚ) (i : ℕ) (h : i < vols.length) (d : PF) :
    (volSpike vols).getD i d =
      match rollingMean 20 vols i with
      | none => PF.nan
      | some m => pdiv (.val (vols.getD i 0)) (.val m) := by
  simp [volSpike, List.getD_eq_getElem?_getD, List.getElem?_map, List.getElem?_range, h]

/-- Helper: a list of nonnegative rationals summing to zero is all
zeros. -/
lemma list_sum_zero_nonneg {l : List ℚ} (h0 : ∀ x ∈ l, 0 ≤ x) (hs : l.sum = 0) :
    ∀ x ∈ l, x = 0 := by
  induction l with
  | nil => intro x hx; cases hx
  | cons a t ih =>
    have ha : 0 ≤ a := h0 a (by simp)
    have ht : 0 ≤ t.sum := List.sum_nonneg (fun x hx => h0 x (by simp [hx]))
    simp only [List.sum_cons] at hs
    intro x hx
    rcases List.mem_cons.mp hx with rfl | hx2
    · linarith
    · exact ih (fun z hz => h0 z (by simp [hz])) (by linarith) x hx2

/-- Helper: the current row's volume belongs to its own trailing
window. -/
lemma getD_mem_window {vols : List ℚ} {i : ℕ} (hi : i < vols.length)
    (h20 : 20 ≤ i + 1) :
    vols.getD i 0 ∈ (vols.take (i + 1)).drop (i + 1 - 20) := by
  have h19 : (19 : ℕ) < ((vols.take (i + 1)).drop (i + 1 - 20)).length := by
    simp only [List.length_drop, List.length_take]
    omega
  have hval : ((vols.take (i + 1)).drop (i + 1 - 20)).get ⟨19, h19⟩ = vols.getD i 0 := by
    have e : i + 1 - 20 + 19 = i := by omega
    rw [List.get_eq_getElem]
    simp only [List.getElem_drop, List.getElem_take, e]
    exact (List.getD_eq_getElem vols 0 hi).symm
  exact hval ▸ List.get_mem _ 19 h19

/-- C4 (amended): the RSI ratio yields null, never ±∞, on a zero
denominator — the whole RSI column is free of infinities, and a zero
smoothed loss gives NaN.  The volume-spike ratio yields null on a zero
20-row mean only when the row's own volume is also zero — in particular
always, when volumes are nonnegative; (`c4_counterexample`: a zero mean
with a nonzero volume yields +∞, not null). -/
theorem c4_null_denominators_amended :
    (∀ (prices : List ℚ) (x : PF), x ∈ rsiList prices → isInfinite x = false)
      ∧ (∀ g l : ℚ, l = 0 → rsiAt g l = PF.nan)
      ∧ (∀ (vols : List ℚ) (i : ℕ), i < vols.length →
          rollingMean 20 vols i = some 0 → vols.getD i 0 = 0 →
          (volSpike vols).getD i PF.nan = PF.nan)
      ∧ (∀ (vols : List ℚ) (i : ℕ), (∀ v ∈ vols, 0 ≤ v) → i < vols.length →
          rollingMean 20 vols i = some 0 →
          (volSpike vols).getD i PF.nan = PF.nan) := by
  have hzero : ∀ g l : ℚ, l = 0 → rsiAt g l = PF.nan := by
    intro g l hl0
    simp [rsiAt, replaceZeroWithNan, hl0, pdiv, padd, psub, pneg]
  have hspike : ∀ (vols : List ℚ) (i : ℕ), i < vols.length →
      rollingMean 20 vols i = some 0 → vols.getD i 0 = 0 →
      (volSpike vols).getD i PF.nan = PF.nan := by
    intro vols i hi hmean hv0
    rw [volSpike_getD vols i hi, hmean, hv0]
    simp [pdiv]
  refine ⟨?_, hzero, hspike, ?_⟩
  · intro prices x hx
    rcases rsiList_mem hx with rfl | ⟨g, l, hg, hl, rfl⟩
    · rfl
    · rcases rsiAt_nan_or_bounded hg hl with h | ⟨v, h, _, _⟩ <;>
        simp [h, isInfinite]
  · intro vols i hnn hi hmean
    have h20 : 20 ≤ i + 1 := by
      by_contra h20
      rw [rollingMean, if_neg h20] at hmean
      cases hmean
    have hsum : ((vols.take (i + 1)).drop (i + 1 - 20)).sum = 0 := by
      rw [rollingMean, if_pos h20] at hmean
      have h2 : ((vols.take (i + 1)).drop (i + 1 - 20)).sum / (20 : ℚ) = 0 := by
        simpa using hmean
      rcases div_eq_zero_iff.mp h2 with h3 | h3
      · exact h3
      · norm_num at h3
    have hwin : ∀ x ∈ (vols.take (i + 1)).drop (i + 1 - 20), 0 ≤ x := by
      intro x hx
      exact hnn x (((List.drop_sublist _ _).trans (List.take_sublist _ _)).mem hx)
    have hv0 : vols.getD i 0 = 0 :=
      list_sum_zero_nonneg hwin hsum _ (getD_mem_window hi h20)
    exact hspike vols i hi hmean hv0

/-- C4 witness: the amended theorem applied at concrete inputs — a
defined RSI value is not infinite, a zero smoothed loss gives NaN, and an
all-zero volume series gives a NaN spike at row 19. -/
theorem c4_witness :
    isInfinite (PF.val 0) = false
      ∧ rsiAt 5 0 = PF.nan
      ∧ (volSpike (List.replicate 20 0)).getD 19 PF.nan = PF.nan :=
  ⟨c4_null_denominators_amended.1 [4, 2] (PF.val 0) (by with_unfolding_all decide),
   c4_null_denominators_amended.2.1 5 0 rfl,
   c4_null_denominators_amended.2.2.2 (List.replicate 20 0) 19
     (fun v hv => le_of_eq (List.eq_of_mem_replicate hv).symm)
     (by simp) (by with_unfolding_all rfl)⟩

/-- C4: the claim is false on the code for `vol_spike`.  The volume
series `[-19, 1, …, 1]` has 20-row mean exactly 0 at row 19 while the
row's volume is 1: the quotient is +∞ (`inf` in the CSV), not null. -/
theorem c4_counterexample :
    rollingMean 20 exVols 19 = some 0 ∧ PF.pinf ∈ volSpike exVols := by
  constructor
  · with_unfolding_all rfl
  · with_unfolding_all decide

/-- Helper: `sameKey` decoded. -/
lemma sameKey_iff {a b : PriceRow} :
    sameKey a b = true ↔ a.date = b.date ∧ a.symbol = b.symbol := by
  simp [sameKey]

/-- Helper: dedup only keeps input rows. -/
lemma mem_of_mem_dropDupKeepLast {l : List PriceRow} {r : PriceRow}
    (h : r ∈ dropDupKeepLast l) : r ∈ l := by
  induction l with
  | nil => simp [dropDupKeepLast] at h
  | cons q rest ih =>
    rw [dropDupKeepLast] at h
    split_ifs at h with hq
    · exact List.mem_cons_of_mem q (ih h)
    · rcases List.mem_cons.mp h with rfl | h2
      · exact List.mem_cons_self r rest
      · exact List.mem_cons_of_mem q (ih h2)

/-- Helper: `lastWithKey` is `none` when no row carries the key. -/
lemma lastWithKey_eq_none {sym : String} {d : ℤ} {l : List PriceRow}
    (h : ∀ r ∈ l, ¬(r.symbol = sym ∧ r.date = d)) :
    lastWithKey sym d l = none := by
  induction l with
  | nil => rfl
  | cons q rest ih =>
    rw [lastWithKey, ih (fun r hr => h r (List.mem_cons_of_mem q hr))]
    rw [if_neg (h q (List.mem_cons_self q rest))]

/-- Helper: a row surviving `drop_duplicates(keep="last")` is the last
input row carrying its key. -/
lemma dropDupKeepLast_lastWithKey {l : List PriceRow} {r : PriceRow}
    (h : r ∈ dropDupKeepLast l) : lastWithKey r.symbol r.date l = some r := by
  induction l with
  | nil => simp [dropDupKeepLast] at h
  | cons q rest ih =>
    rw [dropDupKeepLast] at h
    rw [lastWithKey]
    split_ifs at h with hq
    · rw [ih h]
    · rcases List.mem_cons.mp h with rfl | h2
      · have hnone : lastWithKey r.symbol r.date rest = none := by
          apply lastWithKey_eq_none
          intro s hs hcon
          rw [Bool.not_eq_true, List.any_eq_false] at hq
          exact hq s hs (sameKey_iff.mpr ⟨hcon.2.symm, hcon.1.symm⟩)
        rw [hnone, if_pos ⟨rfl, rfl⟩]
      · rw [ih h2]

/-- Helper: surviving rows have pairwise distinct (date, symbol) keys. -/
lemma dropDupKeepLast_pairwise (l : List PriceRow) :
    (dropDupKeepLast l).Pairwise
      (fun a b => ¬(a.date = b.date ∧ a.symbol = b.symbol)) := by
  induction l with
  | nil => exact List.Pairwise.nil
  | cons q rest ih =>
    rw [dropDupKeepLast]
    split_ifs with hq
    · exact ih
    · refine List.Pairwise.cons ?_ ih
      intro b hb hcon
      rw [Bool.not_eq_true, List.any_eq_false] at hq
      exact hq b (mem_of_mem_dropDupKeepLast hb) (sameKey_iff.mpr ⟨hcon.1, hcon.2⟩)

/-- Helper: every input key is represented among the surviving rows. -/
lemma key_mem_dropDupKeepLast : ∀ (l : List PriceRow), ∀ q ∈ l,
    ∃ r ∈ dropDupKeepLast l, r.symbol = q.symbol ∧ r.date = q.date := by
  intro l
  induction l with
  | nil => intro q hq; cases hq
  | cons p rest ih =>
    intro q hq
    rw [dropDupKeepLast]
    split_ifs with hp
    · rcases List.mem_cons.mp hq with rfl | h2
      · obtain ⟨s, hs, hkey⟩ := List.any_eq_true.mp hp
        obtain ⟨hd, hsym⟩ := sameKey_iff.mp hkey
        obtain ⟨r, hr, hr1, hr2⟩ := ih s hs
        exact ⟨r, hr, hr1.trans hsym.symm, hr2.trans hd.symm⟩
      · exact ih q h2
    · rcases List.mem_cons.mp hq with rfl | h2
      · exact ⟨q, List.mem_cons_self _ _, rfl, rfl⟩
      · obtain ⟨r, hr, hr1, hr2⟩ := ih q h2
        exact ⟨r, List.mem_cons_of_mem p hr, hr1, hr2⟩

/-- Helper: date order on price rows is transitive. -/
lemma priceDateLE_trans (a b c : PriceRow)
    (h1 : priceDateLE a b) (h2 : priceDateLE b c) : priceDateLE a c := by
  simp only [priceDateLE, decide_eq_true_eq] at *
  omega

/-- Helper: date order on price rows is total. -/
lemma priceDateLE_total (a b : PriceRow) : priceDateLE a b || priceDateLE b a := by
  simp only [priceDateLE, Bool.or_eq_true, decide_eq_true_eq]
  omega

/-- C7: after one ingestion step (append new rows after old, dedup on
(date, symbol) keeping the last, then the date sort performed by the
indicator stage), every instrument's series (i) has strictly increasing —
hence unique — dates, (ii) consists exactly of, for each of its dates,
the LAST row of the concatenated input carrying that (symbol, date) key
(later ingestion wins), and (iii) covers every (symbol, date) key present
in the input. -/
theorem c7_ingest_strict_dates_lww (old new : List PriceRow) (sym : String) :
    List.Pairwise (fun a b => a.date < b.date) (instrumentSeries sym (ingest old new))
      ∧ (∀ r ∈ instrumentSeries sym (ingest old new),
          r.symbol = sym ∧ lastWithKey sym r.date (old ++ new) = some r)
      ∧ (∀ q ∈ old ++ new, q.symbol = sym →
          ∃ r ∈ instrumentSeries sym (ingest old new), r.date = q.date) := by
  have hmemser : ∀ r : PriceRow, r ∈ instrumentSeries sym (ingest old new) ↔
      r ∈ dropDupKeepLast (old ++ new) ∧ r.symbol = sym := by
    intro r
    rw [instrumentSeries, List.mem_mergeSort, List.mem_filter, ingest]
    simp
  refine ⟨?_, ?_, ?_⟩
  · have hle : List.Pairwise (fun a b => priceDateLE a b)
        (instrumentSeries sym (ingest old new)) :=
      List.sorted_mergeSort priceDateLE_trans priceDateLE_total _
    have hkeys : ((ingest old new).filter (fun r => r.symbol == sym)).Pairwise
        (fun a b => ¬(a.date = b.date ∧ a.symbol = b.symbol)) :=
      List.Pairwise.filter _ (dropDupKeepLast_pairwise _)
    have hne : ((ingest old new).filter (fun r => r.symbol == sym)).Pairwise
        (fun a b => a.date ≠ b.date) := by
      refine hkeys.imp_of_mem ?_
      intro a b ha hb hkey hdate
      have ha2 := (List.mem_filter.mp ha).2
      have hb2 := (List.mem_filter.mp hb).2
      simp only [beq_iff_eq] at ha2 hb2
      exact hkey ⟨hdate, ha2.trans hb2.symm⟩
    have hne2 : List.Pairwise (fun a b : PriceRow => a.date ≠ b.date)
        (instrumentSeries sym (ingest old new)) := by
      rw [instrumentSeries]
      exact (List.Perm.pairwise_iff (fun h => h.symm)
        (List.mergeSort_perm _ _)).mpr hne
    refine (hle.and hne2).imp ?_
    intro a b hab
    have h1 := hab.1
    simp only [priceDateLE, decide_eq_true_eq] at h1
    exact lt_of_le_of_ne h1 hab.2
  · intro r hr
    obtain ⟨hdup, hsym⟩ := (hmemser r).mp hr
    refine ⟨hsym, ?_⟩
    have := dropDupKeepLast_lastWithKey hdup
    rwa [hsym] at this
  · intro q hq hqsym
    obtain ⟨r, hr, hr1, hr2⟩ := key_mem_dropDupKeepLast _ q hq
    refine ⟨r, (hmemser r).mpr ⟨hr, hr1.trans hqsym⟩, hr2⟩

/-- C7 witness: the theorem applied to a concrete ingestion — the old
table holds dates 2 and 1 for symbol X (out of order), the new batch
holds date 2 again with a different close; the resulting series is
strictly date-increasing and the later row wins at date 2. -/
theorem c7_witness :
    List.Pairwise (fun a b => a.date < b.date)
      (instrumentSeries "X" (ingest [⟨2, "X", 11⟩, ⟨1, "X", 10⟩] [⟨2, "X", 12⟩]))
      ∧ lastWithKey "X" 2 ([⟨2, "X", 11⟩, ⟨1, "X", 10⟩] ++ [⟨2, "X", 12⟩])
          = some ⟨2, "X", 12⟩ :=
  ⟨(c7_ingest_strict_dates_lww [⟨2, "X", 11⟩, ⟨1, "X", 10⟩] [⟨2, "X", 12⟩] "X").1,
   ((c7_ingest_strict_dates_lww [⟨2, "X", 11⟩, ⟨1, "X", 10⟩] [⟨2, "X", 12⟩] "X").2.1
      ⟨2, "X", 12⟩ (by with_unfolding_all decide)).2⟩

/-- Helper: date order on daily rows is transitive. -/
lemma dateLE_trans (a b c : DRow) (h1 : dateLE a b) (h2 : dateLE b c) : dateLE a c := by
  simp only [dateLE, decide_eq_true_eq] at *
  omega

/-- Helper: date order on daily rows is total. -/
lemma dateLE_total (a b : DRow) : dateLE a b || dateLE b a := by
  simp only [dateLE, Bool.or_eq_true, decide_eq_true_eq]
  omega

/-- Helper: a bin label is a Friday (day ≡ 1 mod 7). -/
lemma fridayOf_emod (d : ℤ) : fridayOf d % 7 = 1 := by
  unfold fridayOf
  omega

/-- Helper: bin labels are monotone in the date. -/
lemma fridayOf_mono {a b : ℤ} (h : a ≤ b) : fridayOf a ≤ fridayOf b := by
  unfold fridayOf
  omega

/-- Helper: the date sort is a permutation of the input. -/
lemma sortByDate_perm (rows : List DRow) : List.Perm (sortByDate rows) rows :=
  List.mergeSort_perm rows dateLE

/-- Helper: the date sort is sorted. -/
lemma sortByDate_sorted (rows : List DRow) :
    List.Pairwise (fun a b : DRow => a.date ≤ b.date) (sortByDate rows) := by
  have h := List.sorted_mergeSort dateLE_trans dateLE_total rows
  exact h.imp (fun hab => by simpa [dateLE] using hab)

/-- Helper: first-occurrence dedup is a sublist. -/
lemma dedupFirst_sublist : ∀ l : List ℤ, List.Sublist (dedupFirst l) l
  | [] => List.Sublist.refl _
  | x :: xs => by
    rw [dedupFirst]
    exact ((List.filter_sublist _).trans (dedupFirst_sublist xs)).cons₂ x

/-- Helper: dedup preserves membership. -/
lemma mem_dedupFirst {l : List ℤ} {a : ℤ} : a ∈ dedupFirst l ↔ a ∈ l := by
  constructor
  · exact fun h => (dedupFirst_sublist l).mem h
  · intro h
    induction l with
    | nil => cases h
    | cons x xs ih =>
      rw [dedupFirst]
      rcases List.mem_cons.mp h with rfl | h2
      · exact List.mem_cons_self _ _
      · by_cases hax : a = x
        · subst hax
          exact List.mem_cons_self _ _
        · exact List.mem_cons_of_mem _ (List.mem_filter.mpr ⟨ih h2, by simpa using hax⟩)

/-- Helper: dedup output has no duplicates. -/
lemma dedupFirst_nodup : ∀ l : List ℤ, (dedupFirst l).Nodup
  | [] => List.nodup_nil
  | x :: xs => by
    rw [dedupFirst]
    refine List.nodup_cons.mpr ⟨?_, List.Nodup.filter _ (dedupFirst_nodup xs)⟩
    intro hmem
    have := (List.mem_filter.mp hmem).2
    simp at this

/-- Helper: the occupied bins are strictly increasing. -/
lemma weekBins_sorted (rows : List DRow) :
    List.Pairwise (fun a b : ℤ => a < b) (weekBins rows) := by
  have hmap : List.Pairwise (fun a b : ℤ => a ≤ b)
      ((sortByDate rows).map (fun r => fridayOf r.date)) :=
    List.Pairwise.map _ (fun a b hab => fridayOf_mono hab) (sortByDate_sorted rows)
  have hle : List.Pairwise (fun a b : ℤ => a ≤ b) (weekBins rows) :=
    List.Pairwise.sublist (dedupFirst_sublist _) hmap
  have hnd : List.Pairwise (fun a b : ℤ => a ≠ b) (weekBins rows) := dedupFirst_nodup _
  exact (hle.and hnd).imp (fun h => lt_of_le_of_ne h.1 h.2)

/-- Helper: a bin label is occupied exactly when some input row falls in
it. -/
lemma mem_weekBins {rows : List DRow} {f : ℤ} :
    f ∈ weekBins rows ↔ ∃ r ∈ rows, fridayOf r.date = f := by
  rw [weekBins, mem_dedupFirst, List.mem_map]
  constructor
  · rintro ⟨r, hr, rfl⟩
    exact ⟨r, (sortByDate_perm rows).mem_iff.mp hr, rfl⟩
  · rintro ⟨r, hr, rfl⟩
    exact ⟨r, (sortByDate_perm rows).mem_iff.mpr hr, rfl⟩

/-- Helper: bin membership decoded. -/
lemma mem_binRows {rows : List DRow} {f : ℤ} {r : DRow} :
    r ∈ binRows rows f ↔ r ∈ rows ∧ fridayOf r.date = f := by
  rw [binRows, List.mem_filter, (sortByDate_perm rows).mem_iff]
  simp

/-- Helper: `lastVal` as a fold from an arbitrary accumulator. -/
lemma lastVal_foldl : ∀ (xs : List (Option ℚ)) (a : Option ℚ),
    xs.foldl (fun acc x => match x with | some v => some v | none => acc) a =
      match lastVal xs with
      | some v => some v
      | none => a := by
  intro xs
  induction xs with
  | nil => intro a; rfl
  | cons x xs ih =>
    intro a
    have hcons : lastVal (x :: xs) =
        xs.foldl (fun acc y => match y with | some v => some v | none => acc)
          (match x with | some v => some v | none => none) := rfl
    rw [List.foldl_cons, hcons, ih, ih]
    cases hx : lastVal xs with
    | some v => rfl
    | none => cases x <;> rfl

/-- Helper: `lastVal` of a cons. -/
lemma lastVal_cons (x : Option ℚ) (xs : List (Option ℚ)) :
    lastVal (x :: xs) = match lastVal xs with
      | some v => some v
      | none => x := by
  cases x with
  | some v => exact lastVal_foldl xs (some v)
  | none => exact lastVal_foldl xs none

/-- Helper: `lastVal` after appending a final element: a non-null final
value wins, a null one defers to the prefix. -/
lemma lastVal_concat (xs : List (Option ℚ)) (x : Option ℚ) :
    lastVal (xs ++ [x]) = match x with
      | some v => some v
      | none => lastVal xs := by
  show List.foldl _ none (xs ++ [x]) = _
  rw [List.foldl_append]
  cases x <;> rfl

/-- Helper: `lastVal` is null exactly when the whole column is null. -/
lemma lastVal_eq_none_iff {xs : List (Option ℚ)} :
    lastVal xs = none ↔ ∀ x ∈ xs, x = none := by
  induction xs with
  | nil => simp [lastVal]
  | cons x xs ih =>
    rw [lastVal_cons]
    cases hxs : lastVal xs with
    | none =>
      constructor
      · intro h y hy
        rcases List.mem_cons.mp hy with rfl | hy2
        · exact h
        · exact ih.mp hxs y hy2
      · intro h
        exact h x (List.mem_cons_self _ _)
    | some v =>
      constructor
      · intro h
        cases h
      · intro h
        have h2 := ih.mpr (fun y hy => h y (List.mem_cons_of_mem x hy))
        rw [hxs] at h2
        cases h2

/-- Helper: what a produced weekly row looks like. -/
lemma weeklyRowAt_spec {rows : List DRow} {f : ℤ} {w : WRow}
    (h : weeklyRowAt rows f = some w) :
    w.date = f
      ∧ some w.close = lastVal ((binRows rows f).map (fun r => r.close))
      ∧ w.volume = lastVal ((binRows rows f).map (fun r => r.volume)) := by
  rw [weeklyRowAt] at h
  cases hlv : lastVal ((binRows rows f).map (fun r => r.close)) with
  | none =>
    rw [hlv] at h
    cases h
  | some c =>
    rw [hlv] at h
    cases h
    exact ⟨rfl, rfl, rfl⟩

/-- Helper: the date sort is canonical for inputs with unique dates. -/
lemma sortByDate_eq_of_perm {l1 l2 : List DRow} (hp : List.Perm l1 l2)
    (hnd : (l1.map (fun r => r.date)).Nodup) :
    sortByDate l1 = sortByDate l2 := by
  have hperm : List.Perm (sortByDate l1) (sortByDate l2) :=
    (sortByDate_perm l1).trans (hp.trans (sortByDate_perm l2).symm)
  have h0 : List.Pairwise (fun a b : DRow => a.date ≠ b.date) l1 :=
    List.pairwise_map.mp hnd
  have hnd1 : List.Pairwise (fun a b : DRow => a.date ≠ b.date) (sortByDate l1) :=
    (List.Perm.pairwise_iff (fun h => h.symm) (sortByDate_perm l1)).mpr h0
  have hnd2 : List.Pairwise (fun a b : DRow => a.date ≠ b.date) (sortByDate l2) :=
    (List.Perm.pairwise_iff (fun h => h.symm) hperm).mp hnd1
  have hlt1 : List.Pairwise (fun a b : DRow => a.date < b.date) (sortByDate l1) :=
    ((sortByDate_sorted l1).and hnd1).imp (fun h => lt_of_le_of_ne h.1 h.2)
  have hlt2 : List.Pairwise (fun a b : DRow => a.date < b.date) (sortByDate l2) :=
    ((sortByDate_sorted l2).and hnd2).imp (fun h => lt_of_le_of_ne h.1 h.2)
  have hanti : ∀ a b : DRow, (a.date < b.date ∨ a = b) → (b.date < a.date ∨ b = a) → a = b := by
    intro a b h1 h2
    rcases h1 with h1 | h1
    · rcases h2 with h2 | h2
      · exact absurd h2 (not_lt_of_lt h1)
      · exact h2.symm
    · exact h1
  exact @List.eq_of_perm_of_sorted _ (fun a b : DRow => a.date < b.date ∨ a = b)
    ⟨hanti⟩ _ _ hperm (hlt1.imp Or.inl) (hlt2.imp Or.inl)

/-- Helper: the resampler output depends only on the set of rows, for
inputs with unique dates. -/
lemma to_weekly_eq_of_perm {l1 l2 : List DRow} (hp : List.Perm l1 l2)
    (hnd : (l1.map (fun r => r.date)).Nodup) :
    to_weekly_from_daily l2 = to_weekly_from_daily l1 := by
  have h := sortByDate_eq_of_perm hp hnd
  unfold to_weekly_from_daily weeklyRowAt weekBins binRows
  rw [h]

/-- C6 (amended): for every input with unique dates, in any order, the
weekly series has (i) strictly increasing bin dates — at most one row per
calendar week, (ii) every row anchored to a Friday (day ≡ 1 mod 7) of an
occupied week, with each column holding the last NON-NULL value among the
week's rows — which equals the corresponding value of the week's last
daily row whenever that value is non-null, but falls back to an earlier
row of the same week when the last row holds a null, (iii) a row for
every week containing a row with non-null close — so weeks with no rows
produce no output — and (iv) output independent of the input
ordering. -/
theorem c6_weekly_resample_amended (rows : List DRow)
    (hnd : (rows.map (fun r => r.date)).Nodup) :
    List.Pairwise (fun a b : WRow => a.date < b.date) (to_weekly_from_daily rows)
      ∧ (∀ w ∈ to_weekly_from_daily rows,
          w.date % 7 = 1
            ∧ (∃ r ∈ rows, fridayOf r.date = w.date)
            ∧ some w.close = lastVal ((binRows rows w.date).map (fun r => r.close))
            ∧ w.volume = lastVal ((binRows rows w.date).map (fun r => r.volume))
            ∧ (∀ r : DRow, (binRows rows w.date).getLast? = some r →
                (∀ c : ℚ, r.close = some c → w.close = c)
                  ∧ (r.volume ≠ none → w.volume = r.volume)))
      ∧ (∀ r ∈ rows, r.close ≠ none →
          ∃ w ∈ to_weekly_from_daily rows, w.date = fridayOf r.date)
      ∧ (∀ rows2 : List DRow, List.Perm rows rows2 →
          to_weekly_from_daily rows2 = to_weekly_from_daily rows) := by
  refine ⟨?_, ?_, ?_, fun rows2 hp => to_weekly_eq_of_perm hp hnd⟩
  · rw [to_weekly_from_daily]
    refine List.Pairwise.filterMap _ ?_ (weekBins_sorted rows)
    intro f g hfg w hw w2 hw2
    rw [(weeklyRowAt_spec hw).1, (weeklyRowAt_spec hw2).1]
    exact hfg
  · intro w hw
    rw [to_weekly_from_daily] at hw
    obtain ⟨f, hfbins, hfn⟩ := List.mem_filterMap.mp hw
    obtain ⟨hdate, hclose, hvol⟩ := weeklyRowAt_spec hfn
    subst hdate
    obtain ⟨r0, hr0, hr0f⟩ := mem_weekBins.mp hfbins
    refine ⟨hr0f ▸ fridayOf_emod r0.date, ⟨r0, hr0, hr0f⟩, hclose, hvol, ?_⟩
    intro r hlast
    obtain ⟨ys, hys⟩ := List.getLast?_eq_some_iff.mp hlast
    constructor
    · intro c hc
      rw [hys, List.map_append, List.map_singleton, lastVal_concat, hc] at hclose
      exact (Option.some.injEq .. ▸ hclose : w.close = c)
    · intro hvne
      obtain ⟨v, hv⟩ := Option.ne_none_iff_exists'.mp hvne
      rw [hys, List.map_append, List.map_singleton, lastVal_concat, hv] at hvol
      rw [hvol, hv]
  · intro r hr hc
    obtain ⟨c, hc2⟩ := Option.ne_none_iff_exists'.mp hc
    have hfbins : fridayOf r.date ∈ weekBins rows := mem_weekBins.mpr ⟨r, hr, rfl⟩
    have hrbin : r ∈ binRows rows (fridayOf r.date) := mem_binRows.mpr ⟨hr, rfl⟩
    have hsome : lastVal ((binRows rows (fridayOf r.date)).map (fun x => x.close)) ≠ none := by
      intro hnone
      have := lastVal_eq_none_iff.mp hnone r.close (List.mem_map_of_mem _ hrbin)
      rw [hc2] at this
      cases this
    cases hlv : lastVal ((binRows rows (fridayOf r.date)).map (fun x => x.close)) with
    | none => exact absurd hlv hsome
    | some c2 =>
      refine ⟨⟨fridayOf r.date, c2,
          lastVal ((binRows rows (fridayOf r.date)).map (fun x => x.volume))⟩, ?_, rfl⟩
      rw [to_weekly_from_daily]
      refine List.mem_filterMap.mpr ⟨fridayOf r.date, hfbins, ?_⟩
      rw [weeklyRowAt, hlv]

/-- C6 witness: the theorem applied to the two-row week `exDRows` (a
Thursday and a Friday of the same bin). -/
theorem c6_witness :
    List.Pairwise (fun a b : WRow => a.date < b.date) (to_weekly_from_daily exDRows)
      ∧ ∃ w ∈ to_weekly_from_daily exDRows, w.date = fridayOf 1 :=
  ⟨(c6_weekly_resample_amended exDRows (by decide)).1,
   (c6_weekly_resample_amended exDRows (by decide)).2.2.1
     ⟨1, some 2, none⟩ (by decide) (by decide)⟩

/-- C6: the claim as stated is false on the code.  In the week holding
`exDRows` the LAST daily row is `⟨1, some 2, none⟩` (null volume), yet the
weekly row carries `volume = some 5` taken from the EARLIER row —
`resample(...).last()` picks the last non-null value per column, not the
last row's value. -/
theorem c6_counterexample :
    to_weekly_from_daily exDRows = [⟨1, 2, some 5⟩]
      ∧ exDRows.getLast? = some ⟨1, some 2, none⟩
      ∧ (some (5 : ℚ) ≠ (none : Option ℚ)) := by
  refine ⟨by with_unfolding_all rfl, rfl, by decide⟩

end StockAgent
